import Mathlib

/-
Verification of the etcd client utility layer (salt/utils/etcd_util.py):
the watch/read error-normalization logic and the flatten/tree codec.

The transport (python-etcd client plus the etcd server) is an external
collaborator; it is modelled as an oracle mapping each read request to an
outcome, and (for write-based operations) as a hierarchical key-value store.
-/

set_option autoImplicit false

namespace EtcdUtil

/-- A child entry of a directory listing returned by the transport
(shape per the transport interface: key, value, dir). -/
structure EtcdChild where
  key : String
  value : Option String
  dir : Bool
deriving DecidableEq

/-- A read result returned by the transport: value, dir flag, modifiedIndex,
key and (for directory reads) the children sequence. -/
structure EtcdNode where
  key : String
  value : Option String
  dir : Bool
  modifiedIndex : Int
  children : List EtcdChild
deriving DecidableEq

/-- The read request the client hands to the transport; mirrors the
parameters of client.read in EtcdClient.read. -/
structure ReadReq where
  key : String
  recursive : Bool
  wait : Bool
  timeout : Option Nat
  waitIndex : Option Int
deriving DecidableEq

/-- What the raw transport call does: return a result (possibly None) or
raise one of the exceptions EtcdClient.read distinguishes. -/
inductive TransportOutcome where
  | success (result : Option EtcdNode)
  | keyNotFound
  | connectionFailed
  | readTimeout
  | maxRetry
  | etcdException
  | valueError
  | otherExc
deriving DecidableEq

/-- A transport behaviour: the outcome of each possible read request. -/
abbrev Transport : Type := ReadReq → TransportOutcome

/-- The closed exception taxonomy crossing function boundaries in the
source: each variant models the Python exception of the same name
(watchTimeout is EtcdUtilWatchTimeout; attributeError arises from
getattr on None; notFile/notDir/rootReadOnly are the etcd write
conflicts; otherExc is any other uncaught exception). -/
inductive Exc where
  | keyNotFound
  | connectionFailed
  | watchTimeout
  | etcdException
  | valueError
  | attributeError
  | notFile
  | notDir
  | rootReadOnly
  | otherExc
deriving DecidableEq

/-- The request EtcdClient.read builds: Python omits waitIndex when it is
falsy (None or 0), so the transport sees no waitIndex in that case. -/
def reqOf (key : String) (recursive wait : Bool) (timeout : Option Nat)
    (waitIndex : Option Int) : ReadReq :=
  { key := key, recursive := recursive, wait := wait, timeout := timeout,
    waitIndex :=
      match waitIndex with
      | some i => if i = 0 then none else some i
      | none => none }

/-- EtcdClient.read: performs the transport read and normalizes failures.
EtcdKeyNotFound and EtcdConnectionFailed are re-raised; a ReadTimeoutError
is a WatchTimeout when wait=true and is reclassified as
EtcdConnectionFailed when wait=false; MaxRetryError becomes
EtcdConnectionFailed; EtcdException, ValueError and anything else are
re-raised. -/
def read (tr : Transport) (key : String) (recursive wait : Bool)
    (timeout : Option Nat) (waitIndex : Option Int) :
    Except Exc (Option EtcdNode) :=
  match tr (reqOf key recursive wait timeout waitIndex) with
  | .success r => .ok r
  | .keyNotFound => .error .keyNotFound
  | .connectionFailed => .error .connectionFailed
  | .readTimeout => if wait then .error .watchTimeout else .error .connectionFailed
  | .maxRetry => .error .connectionFailed
  | .etcdException => .error .etcdException
  | .valueError => .error .valueError
  | .otherExc => .error .otherExc

/-- The value EtcdClient.watch returns: either the empty dict sentinel or
the populated result dict with keys key/value/changed/mIndex/dir. -/
inductive WatchRet where
  | empty
  | res (key : String) (value : Option String) (changed : Bool)
      (mIndex : Int) (dir : Bool)
deriving DecidableEq

/-- EtcdClient.watch: issue a waiting read; on EtcdUtilWatchTimeout fall
back to an immediate read (KeyNotFound keeps the initial result dict,
ValueError yields the empty sentinel, a None result hits getattr on None,
and any other exception of the fallback read propagates, since the
surrounding except clauses only guard the first read); on
EtcdConnectionFailed or ValueError of the first read return the empty
sentinel; a None result of the first read also yields the empty sentinel;
otherwise report the change. -/
def watch (tr : Transport) (key : String) (recurse : Bool) (timeout : Nat)
    (index : Option Int) : Except Exc WatchRet :=
  match read tr key recurse true (some timeout) index with
  | .ok none => .ok .empty
  | .ok (some r) =>
      .ok (.res (if recurse then r.key else key) r.value true r.modifiedIndex r.dir)
  | .error .watchTimeout =>
      (match read tr key false false none none with
       | .error .keyNotFound => .ok (.res key none false 0 false)
       | .error .valueError => .ok .empty
       | .error e => .error e
       | .ok none => .error .attributeError
       | .ok (some r) => .ok (.res key r.value false r.modifiedIndex r.dir))
  | .error .connectionFailed => .ok .empty
  | .error .valueError => .ok .empty
  | .error e => .error e

/-- A value of the nested dict EtcdClient.tree builds: a child's value
string (possibly None), a None left by a failed recursive call, or a
nested dict. -/
inductive TreeVal where
  | strV (s : Option String)
  | noneV
  | dictV (es : List (String × TreeVal))

/-- The component after the last slash of a key, as comps[-1] of the
Python split("/") computes it. -/
def lastComp (s : String) : String :=
  ⟨(s.data.reverse.takeWhile (fun c => ¬ c = '/')).reverse⟩

/-- Wrap an optional tree result the way ret[comps[-1]] = self.tree(...)
stores it: None stays None, a dict stays a dict. -/
def subVal (o : Option (List (String × TreeVal))) : TreeVal :=
  match o with
  | none => .noneV
  | some es => .dictV es

/-- The children loop of EtcdClient.tree, with the recursive tree call
passed in: a directory entry equal to the path itself is skipped, other
directory entries recurse, and each surviving entry is keyed by the last
path component of its key. -/
def treeKids (rec : String → Except Exc (Option (List (String × TreeVal))))
    (path : String) : List EtcdChild → Except Exc (List (String × TreeVal))
  | [] => .ok []
  | c :: rest =>
      if c.dir then
        if c.key = path then treeKids rec path rest
        else
          match rec c.key with
          | .error e => .error e
          | .ok sub =>
              match treeKids rec path rest with
              | .error e => .error e
              | .ok l => .ok ((lastComp c.key, subVal sub) :: l)
      else
        match treeKids rec path rest with
        | .error e => .error e
        | .ok l => .ok ((lastComp c.key, .strV c.value) :: l)

/-- EtcdClient.tree: read the path, return None on
KeyNotFound/ValueError/EtcdConnectionFailed, and otherwise rebuild the
nested dict from the children via treeKids. The fuel argument bounds the
recursion depth (the Python recursion is unbounded); the theorems below
hold for every fuel value they quantify over. -/
def tree (tr : Transport) : Nat → String →
    Except Exc (Option (List (String × TreeVal)))
  | 0, _ => .ok none
  | f + 1, path =>
      match read tr path false false none none with
      | .error .keyNotFound => .ok none
      | .error .valueError => .ok none
      | .error .connectionFailed => .ok none
      | .error e => .error e
      | .ok none => .error .attributeError
      | .ok (some items) =>
          match treeKids (fun k => tree tr f k) path items.children with
          | .error e => .error e
          | .ok l => .ok (some l)

/-- The value EtcdClient.get returns: the scalar of the non-recursive
branch, or the tree of the recursive branch. -/
inductive GetRet where
  | flatV (v : Option String)
  | treeV (t : Option (List (String × TreeVal)))

/-- EtcdClient.get: non-recursive reads swallow
KeyNotFound/EtcdConnectionFailed/ValueError into None and return the
result's value (getattr with default None); recursive gets delegate to
tree. -/
def get (tr : Transport) (fuel : Nat) (key : String) (recurse : Bool) :
    Except Exc GetRet :=
  if recurse then
    match tree tr fuel key with
    | .error e => .error e
    | .ok t => .ok (.treeV t)
  else
    match read tr key false false none none with
    | .error .keyNotFound => .ok (.flatV none)
    | .error .connectionFailed => .ok (.flatV none)
    | .error .valueError => .ok (.flatV none)
    | .error e => .error e
    | .ok none => .ok (.flatV none)
    | .ok (some r) => .ok (.flatV r.value)

/-- A value of the one-level listing EtcdClient.ls builds: the empty-dict
marker a directory child gets, or a leaf child's value. -/
inductive LsVal where
  | dirMark
  | strVal (v : Option String)
deriving DecidableEq

/-- The value EtcdClient.ls returns: None (connection failure), the bare
empty dict (missing key or ValueError), or the singleton dict mapping the
path to its listing. -/
inductive LsRet where
  | pyNone
  | emptyD
  | dictR (path : String) (entries : List (String × LsVal))
deriving DecidableEq

/-- The children loop of EtcdClient.ls: directory children (other than the
path itself) get an empty-dict value under a trailing-slash key, leaf
children get their value under their key. -/
def lsEntries (path : String) : List EtcdChild → List (String × LsVal)
  | [] => []
  | c :: rest =>
      if c.dir then
        if c.key = path then lsEntries path rest
        else (c.key ++ "/", .dirMark) :: lsEntries path rest
      else (c.key, .strVal c.value) :: lsEntries path rest

/-- EtcdClient.ls: read the path; KeyNotFound and ValueError return the
bare empty dict, EtcdConnectionFailed returns None, other exceptions
propagate; otherwise return the singleton dict of the listing. -/
def ls (tr : Transport) (path : String) : Except Exc LsRet :=
  match read tr path false false none none with
  | .error .keyNotFound => .ok .emptyD
  | .error .valueError => .ok .emptyD
  | .error .connectionFailed => .ok .pyNone
  | .error e => .error e
  | .ok none => .error .attributeError
  | .ok (some items) => .ok (.dictR path (lsEntries path items.children))

/-! ## The tree codec: nested trees and flattening -/

/-- A nested configuration tree, as update receives it: each entry value
is either a scalar string (a leaf) or a nested mapping (a directory). -/
inductive NTree where
  | leaf (v : String)
  | dir (es : List (String × NTree))

/-- A value of the flat map _flatten produces: a scalar string, or the
empty-dict marker emitted for an empty directory. -/
inductive FlatVal where
  | emptyDir
  | val (v : String)
deriving DecidableEq

/-- Strip leading slashes at the char level. -/
def dropSlash (cs : List Char) : List Char :=
  cs.dropWhile (fun c => c = '/')

/-- Python str.strip("/") on the char list: remove all leading and
trailing slash characters. -/
def stripCh (cs : List Char) : List Char :=
  ((dropSlash cs).reverse.dropWhile (fun c => c = '/')).reverse

/-- Python key.strip("/") as used by _flatten. -/
def stripSlashes (s : String) : String :=
  ⟨stripCh s.data⟩

/-- The child path _flatten computes: "/path/k" when the stripped path is
nonempty, "/k" otherwise. -/
def mkPath (path k : String) : String :=
  if path = "" then "/" ++ k else "/" ++ path ++ "/" ++ k

mutual

/-- One entry of EtcdClient._flatten at its already-computed child path p:
a scalar maps to a single flat entry, an empty dict to the empty-directory
marker at p (the Python `if not data` early return), and a nonempty dict
recurses with p stripped of outer slashes. -/
def flatOne (p : String) : NTree → List (String × FlatVal)
  | .leaf v => [(p, .val v)]
  | .dir [] => [(p, .emptyDir)]
  | .dir (e :: rest) => flatList (e :: rest) (stripSlashes p)

/-- The entry loop of EtcdClient._flatten over a nonempty dict, with the
enclosing path already stripped: each key is stripped, its child path
computed, and its value flattened there. -/
def flatList : List (String × NTree) → String → List (String × FlatVal)
  | [], _ => []
  | (k, v) :: rest, path =>
      flatOne (mkPath path (stripSlashes k)) v ++ flatList rest path

end

/-- EtcdClient._flatten: an empty dict yields the single marker entry at
the given (unstripped) path; otherwise the path is stripped and each entry
flattened. Duplicate flat keys are kept in emission order; Python's dict
keeps the last-written value, which flatLookup below reads off. -/
def flatten (data : List (String × NTree)) (path : String) :
    List (String × FlatVal) :=
  match data with
  | [] => [(path, .emptyDir)]
  | e :: rest => flatList (e :: rest) (stripSlashes path)

/-- The value a flat-entry list associates with a key under Python dict
semantics: the last entry for that key wins. -/
def flatLookup (es : List (String × FlatVal)) (k : String) : Option FlatVal :=
  match es with
  | [] => none
  | (k', v) :: rest =>
      match flatLookup rest k with
      | some r => some r
      | none => if k' = k then some v else none

/-! ## The store model

Modelled from the spec: the KV Transport and the etcd store behind it are
external collaborators ("KV Transport (external collaborator): must expose
read(...), write(key, value, ttl, dir), ... raising from the taxonomy:
key-not-found, connection-failed, not-a-file/not-a-directory,
root-read-only, ..."). The store is a tree of directories and files; a
write resolves the slash-separated key, auto-creates intermediate
directories, and signals not-a-file when a directory stands where a file
is wanted (including writing a directory over an existing directory,
which python-etcd reports as EtcdNotFile, per the comment in
write_directory), not-a-directory when a file stands where a directory is
wanted, and root-read-only for the root path. -/

/-- A node of the modelled etcd store: a file with a value, or a
directory with named children. -/
inductive SNode where
  | file (v : String)
  | sdir (es : List (String × SNode))

/-- The modelled etcd store: the children of the root directory. -/
abbrev Store : Type := List (String × SNode)

/-- Look up a direct child by name. -/
def getEntry : List (String × SNode) → String → Option SNode
  | [], _ => none
  | (k', n) :: rest, k => if k' = k then some n else getEntry rest k

/-- Replace a direct child in place, appending when absent. -/
def setEntry : List (String × SNode) → String → SNode → List (String × SNode)
  | [], k, n => [(k, n)]
  | (k', m) :: rest, k, n =>
      if k' = k then (k', n) :: rest else (k', m) :: setEntry rest k n

/-- Split a key into its nonempty slash-separated segments (the store's
path resolution). Modelled from the spec: keys are slash-delimited paths
normalized at segment boundaries. -/
def splitAcc : List Char → List Char → List (List Char)
  | [], acc => if acc = [] then [] else [acc.reverse]
  | c :: rest, acc =>
      if c = '/' then
        (if acc = [] then [] else [acc.reverse]) ++ splitAcc rest []
      else splitAcc rest (c :: acc)

/-- The segment list of a key string. -/
def segsOf (s : String) : List String :=
  (splitAcc s.data []).map (fun cs => ⟨cs⟩)

/-- What a transport write reports: success (with the written node's value
and dir flag) or one of the etcd write conflicts. -/
inductive WriteOutcome where
  | success (value : Option String) (dir : Bool)
  | notFile
  | notDir
  | rootReadOnly
deriving DecidableEq

/-- Writing the final segment of a path into a directory's children.
Modelled from the spec: a directory write over an existing directory
raises EtcdNotFile (python-etcd), over an existing file raises EtcdNotDir;
a file write over an existing directory raises EtcdNotFile; otherwise the
node is created or overwritten. -/
def writeLast (es : List (String × SNode)) (k : String)
    (value : Option String) (isDir : Bool) :
    WriteOutcome × List (String × SNode) :=
  match getEntry es k, isDir with
  | some (.sdir _), true => (.notFile, es)
  | some (.file _), true => (.notDir, es)
  | none, true => (.success none true, es ++ [(k, .sdir [])])
  | some (.sdir _), false => (.notFile, es)
  | some (.file _), false =>
      (.success (some (value.getD "")) false, setEntry es k (.file (value.getD "")))
  | none, false =>
      (.success (some (value.getD "")) false, es ++ [(k, .file (value.getD ""))])

/-- The transport write against the modelled store: resolve the segment
path, auto-create missing intermediate directories, report EtcdNotDir
when an intermediate node is a file, EtcdRootReadOnly for the root path,
and delegate the final segment to writeLast. -/
def storeWrite (es : List (String × SNode)) :
    List String → Option String → Bool → WriteOutcome × List (String × SNode)
  | [], _, _ => (.rootReadOnly, es)
  | [k], value, isDir => writeLast es k value isDir
  | k :: k2 :: rest, value, isDir =>
      match getEntry es k with
      | some (.file _) => (.notDir, es)
      | some (.sdir d) =>
          let r := storeWrite d (k2 :: rest) value isDir
          (r.1, setEntry es k (.sdir r.2))
      | none =>
          let r := storeWrite [] (k2 :: rest) value isDir
          (r.1, es ++ [(k, .sdir r.2)])

/-- Read the node at a segment path of the store; the empty path is the
root directory itself. -/
def storeGet : List String → List (String × SNode) → Option SNode
  | [], es => some (.sdir es)
  | [k], es => getEntry es k
  | k :: k2 :: rest, es =>
      match getEntry es k with
      | some (.sdir d) => storeGet (k2 :: rest) d
      | _ => none

/-- The value a write-style method returns to its caller: None on a
handled conflict, a bool (write_directory), or the written value string
(write_file). -/
inductive WriteRet where
  | noneV
  | boolV (b : Bool)
  | strV (s : String)
deriving DecidableEq

/-- EtcdClient.write_file: write a key-value pair; EtcdNotFile,
EtcdRootReadOnly, ValueError and MaxRetryError are swallowed into None,
anything else (such as EtcdNotDir from a file standing mid-path) is
re-raised; success returns the written value. -/
def write_file (st : Store) (key : String) (value : Option String) :
    Except Exc WriteRet × Store :=
  match storeWrite st (segsOf key) value false with
  | (.success v _, st') =>
      (.ok (match v with | some s => .strV s | none => .noneV), st')
  | (.notFile, st') => (.ok .noneV, st')
  | (.rootReadOnly, st') => (.ok .noneV, st')
  | (.notDir, st') => (.error .notDir, st')

/-- EtcdClient.write_directory: write a directory (value is always passed
as None to the transport); EtcdNotFile means the directory already exists
and is returned as success True; EtcdNotDir, EtcdRootReadOnly, ValueError
and MaxRetryError are swallowed into None; success returns the result's
dir flag. -/
def write_directory (st : Store) (key : String) :
    Except Exc WriteRet × Store :=
  match storeWrite st (segsOf key) none true with
  | (.success _ d, st') => (.ok (.boolV d), st')
  | (.notFile, st') => (.ok (.boolV true), st')
  | (.notDir, st') => (.ok .noneV, st')
  | (.rootReadOnly, st') => (.ok .noneV, st')

/-- EtcdClient.write: dispatch on the directory flag. -/
def write (st : Store) (key : String) (value : Option String)
    (directory : Bool) : Except Exc WriteRet × Store :=
  if directory then write_directory st key else write_file st key value

/-- One write of EtcdClient.update's loop: the directory flag is set
exactly when the flattened value is a dict (the empty-directory marker). -/
def writeKV (st : Store) (k : String) : FlatVal → Except Exc WriteRet × Store
  | .val v => write st k (some v) false
  | .emptyDir => write st k none true

/-- The write loop of EtcdClient.update over the flat entries, collecting
each flat key's write result; an uncaught write exception aborts and
propagates. -/
def updateGo : List (String × FlatVal) → Store →
    Except Exc (List (String × WriteRet) × Store)
  | [], st => .ok ([], st)
  | (k, fv) :: rest, st =>
      match writeKV st k fv with
      | (.error e, _) => .error e
      | (.ok r, st') =>
          match updateGo rest st' with
          | .error e => .error e
          | .ok (l, st'') => .ok ((k, r) :: l, st'')

/-- EtcdClient.update: a non-dict input returns None at once; a dict is
flattened and every flat entry written, returning the mapping from flat
key to write result. -/
def update (fields : NTree) (path : String) (st : Store) :
    Except Exc (Option (List (String × WriteRet)) × Store) :=
  match fields with
  | .leaf _ => .ok (none, st)
  | .dir es =>
      match updateGo (flatten es path) st with
      | .error e => .error e
      | .ok (l, st') => .ok (some l, st')

/-! ## The directory-listing reconstruction (unflatten) -/

mutual

/-- Modelled from the spec: "unflatten is implicit in tree():
reconstructing a NestedTree from a live directory listing". One node of
the reconstruction: a file child becomes a leaf under its segment name
(comps[-1] of its key), a directory child a nested dict built from its
own listing. -/
def treeSimN : SNode → NTree
  | .file v => .leaf v
  | .sdir d => .dir (treeSim d)

/-- The listing loop of the reconstruction: EtcdClient.tree specialized
to a live store. An empty directory lists only its self-entry, which
tree skips, giving the empty dict. -/
def treeSim : List (String × SNode) → List (String × NTree)
  | [] => []
  | (k, n) :: rest => (k, treeSimN n) :: treeSim rest

end

/-- One store transition of the loading loop: a marker entry is a
directory write, a scalar entry a file write (state only; the returned
statuses are dropped). -/
def loadStep (st : List (String × SNode)) (segs : List String)
    (fv : FlatVal) : List (String × SNode) :=
  match fv with
  | .val v => (storeWrite st segs (some v) false).2
  | .emptyDir => (storeWrite st segs none true).2

/-- Load a flat map into an empty store by replaying update's write loop
on each flat entry in order. -/
def loadFlat (es : List (String × FlatVal)) : Store :=
  es.foldl (fun st e => loadStep st (segsOf e.1) e.2) []

/-! ## Claims about read and watch -/

/-- C3: a generic read-timeout signalled by the transport is classified
by the wait flag alone: with wait=true the read raises WatchTimeout, with
wait=false it raises ConnectionFailed. -/
theorem read_timeout_classification (tr : Transport) (key : String)
    (recursive : Bool) (timeout : Option Nat) (waitIndex : Option Int) :
    (tr (reqOf key recursive true timeout waitIndex) = .readTimeout →
      read tr key recursive true timeout waitIndex = .error .watchTimeout) ∧
    (tr (reqOf key recursive false timeout waitIndex) = .readTimeout →
      read tr key recursive false timeout waitIndex = .error .connectionFailed) := by
  constructor <;> intro h <;> simp [read, h]

/-- Witness for C3 at a concrete transport that times out every read. -/
theorem read_timeout_classification_witness :
    read (fun _ => .readTimeout) "k" false true (some 1) none = .error .watchTimeout ∧
    read (fun _ => .readTimeout) "k" false false (some 1) none = .error .connectionFailed :=
  ⟨(read_timeout_classification (fun _ => .readTimeout) "k" false (some 1) none).1 rfl,
   (read_timeout_classification (fun _ => .readTimeout) "k" false (some 1) none).2 rfl⟩

/-- C1, counterexample to the claim as stated: when the waiting read
raises WatchTimeout and the fallback read then raises
EtcdConnectionFailed, watch does not return — the exception propagates
(the except clause for connection failures guards only the first read). -/
theorem watch_timeout_fallback_cex :
    read (fun req => if req.wait then .readTimeout else .connectionFailed)
      "k" false true (some 1) none = .error .watchTimeout ∧
    watch (fun req => if req.wait then .readTimeout else .connectionFailed)
      "k" false 1 none = .error .connectionFailed :=
  ⟨rfl, rfl⟩

/-- C1 (amended): when the waiting read raises WatchTimeout, watch issues
the immediate fallback read; a KeyNotFound there returns the initial
result dict (key, value None, changed false, mIndex 0, dir false); a node
result returns changed=false with the node's value, modifiedIndex and dir
flag; a ValueError there returns the empty sentinel; a connection failure
there propagates as a raised exception. -/
theorem watch_timeout_fallback (tr : Transport) (key : String)
    (recurse : Bool) (timeout : Nat) (index : Option Int)
    (h : read tr key recurse true (some timeout) index = .error .watchTimeout) :
    (read tr key false false none none = .error .keyNotFound →
       watch tr key recurse timeout index = .ok (.res key none false 0 false)) ∧
    (∀ r, read tr key false false none none = .ok (some r) →
       watch tr key recurse timeout index =
         .ok (.res key r.value false r.modifiedIndex r.dir)) ∧
    (read tr key false false none none = .error .valueError →
       watch tr key recurse timeout index = .ok .empty) ∧
    (read tr key false false none none = .error .connectionFailed →
       watch tr key recurse timeout index = .error .connectionFailed) := by
  refine ⟨fun h2 => ?_, fun r h2 => ?_, fun h2 => ?_, fun h2 => ?_⟩ <;>
    simp [watch, h, h2]

/-- Witness for C1 at a transport whose waiting read times out and whose
fallback read finds no key. -/
theorem watch_timeout_fallback_witness :
    watch (fun req => if req.wait then .readTimeout else .keyNotFound)
      "k" false 1 none = .ok (.res "k" none false 0 false) :=
  (watch_timeout_fallback (fun req => if req.wait then .readTimeout else .keyNotFound)
    "k" false 1 none rfl).1 rfl

/-- C2: when the transport cannot connect at all — every read attempt
fails with a connection failure or retry exhaustion — watch returns the
empty sentinel, get returns None, ls returns None and tree returns None;
none of them raises. -/
theorem connection_down_sentinels (tr : Transport)
    (h : ∀ req, tr req = .connectionFailed ∨ tr req = .maxRetry) :
    ∀ (key path : String) (recurse : Bool) (timeout fuel : Nat)
      (index : Option Int),
      watch tr key recurse timeout index = .ok .empty ∧
      get tr fuel key false = .ok (.flatV none) ∧
      ls tr path = .ok .pyNone ∧
      tree tr fuel path = .ok none := by
  intro key path recurse timeout fuel index
  have hr : ∀ (k : String) (rc w : Bool) (t : Option Nat) (wi : Option Int),
      read tr k rc w t wi = .error .connectionFailed := by
    intro k rc w t wi
    rcases h (reqOf k rc w t wi) with h' | h' <;> simp [read, h']
  refine ⟨by simp [watch, hr], by simp [get, hr], by simp [ls, hr], ?_⟩
  cases fuel with
  | zero => rfl
  | succ f => simp [tree, hr]

/-- Witness for C2 at the transport that refuses every connection. -/
theorem connection_down_sentinels_witness :
    watch (fun _ => .connectionFailed) "k" false 1 none = .ok .empty ∧
    get (fun _ => .connectionFailed) 5 "k" false = .ok (.flatV none) ∧
    ls (fun _ => .connectionFailed) "/a" = .ok .pyNone ∧
    tree (fun _ => .connectionFailed) 5 "/a" = .ok none :=
  connection_down_sentinels (fun _ => .connectionFailed)
    (fun _ => Or.inl rfl) "k" "/a" false 1 5 none

/-- C10: a waiting read that completes without raising but returns a None
result makes watch return the empty sentinel — the same value a
connection failure of the waiting read produces — not a populated
WatchResult. -/
theorem watch_none_result_empty (tr : Transport) (key : String)
    (recurse : Bool) (timeout : Nat) (index : Option Int)
    (h : read tr key recurse true (some timeout) index = .ok none) :
    watch tr key recurse timeout index = .ok .empty ∧
    (∀ tr2 : Transport,
       read tr2 key recurse true (some timeout) index = .error .connectionFailed →
       watch tr2 key recurse timeout index = .ok .empty) := by
  refine ⟨by simp [watch, h], fun tr2 h2 => by simp [watch, h2]⟩

/-- Witness for C10 at a transport returning a None read result. -/
theorem watch_none_result_empty_witness :
    watch (fun _ => .success none) "k" false 1 none = .ok .empty ∧
    watch (fun _ => .connectionFailed) "k" false 1 none = .ok .empty :=
  ⟨(watch_none_result_empty (fun _ => .success none) "k" false 1 none rfl).1,
   (watch_none_result_empty (fun _ => .success none) "k" false 1 none rfl).2
     (fun _ => .connectionFailed) rfl⟩

/-! ## Claims about ls -/

/-- C8, counterexample to the claim as stated: a missing key
(KeyNotFound) makes ls return the bare empty dict, not None — the None
sentinel is reserved for connection failures. -/
theorem ls_missing_key_cex :
    ls (fun _ => .keyNotFound) "/a" = .ok .emptyD ∧
    (Except.ok LsRet.emptyD : Except Exc LsRet) ≠ .ok .pyNone :=
  ⟨rfl, by simp⟩

/-- C8 (amended): ls never raises for a missing key or an unreachable
store, but the sentinels differ: KeyNotFound and ValueError return the
empty dict, while a connection failure (including retry exhaustion)
returns None. -/
theorem ls_missing_key_sentinels (tr : Transport) (path : String) :
    (tr (reqOf path false false none none) = .keyNotFound →
       ls tr path = .ok .emptyD) ∧
    (tr (reqOf path false false none none) = .valueError →
       ls tr path = .ok .emptyD) ∧
    (tr (reqOf path false false none none) = .connectionFailed →
       ls tr path = .ok .pyNone) ∧
    (tr (reqOf path false false none none) = .maxRetry →
       ls tr path = .ok .pyNone) := by
  refine ⟨fun h => ?_, fun h => ?_, fun h => ?_, fun h => ?_⟩ <;>
    simp [ls, read, h]

/-- Witness for C8 at concrete transports. -/
theorem ls_missing_key_sentinels_witness :
    ls (fun _ => .valueError) "/a" = .ok .emptyD ∧
    ls (fun _ => .connectionFailed) "/a" = .ok .pyNone :=
  ⟨(ls_missing_key_sentinels (fun _ => .valueError) "/a").2.1 rfl,
   (ls_missing_key_sentinels (fun _ => .connectionFailed) "/a").2.2.1 rfl⟩

/-- C9, counterexample to the claim as stated: when the transport's
listing of the path contains a leaf entry whose key is the path itself
(as happens when the path names a file), ls does include the path as a
child entry — only directory self-entries are skipped. -/
theorem ls_skip_self_cex :
    ls (fun _ => .success (some ⟨"/a", some "v", false, 1,
        [⟨"/a", some "v", false⟩]⟩)) "/a" =
      .ok (.dictR "/a" [("/a", .strVal (some "v"))]) ∧
    "/a" ∈ (lsEntries "/a" [⟨"/a", some "v", false⟩]).map Prod.fst :=
  ⟨rfl, by decide⟩

/-- C9 (amended): ls always skips a directory entry whose key equals the
path; consequently, when every self-keyed entry of the listing is a
directory (and no directory entry's trailing-slash name equals the path),
the path never appears among the listing's child entries. A leaf entry
keyed by the path itself is not skipped. -/
theorem ls_skip_self_dir (path : String) (cs : List EtcdChild)
    (h1 : ∀ c ∈ cs, c.key = path → c.dir = true)
    (h2 : ∀ c ∈ cs, c.dir = true → ¬ c.key ++ "/" = path) :
    (∀ (v : Option String) (rest : List EtcdChild),
       lsEntries path (⟨path, v, true⟩ :: rest) = lsEntries path rest) ∧
    path ∉ (lsEntries path cs).map Prod.fst := by
  refine ⟨fun v rest => by simp [lsEntries], ?_⟩
  induction cs with
  | nil => simp [lsEntries]
  | cons c rest ih =>
      have h1c := h1 c (by simp)
      have h2c := h2 c (by simp)
      have ih' := ih (fun x hx => h1 x (by simp [hx]))
        (fun x hx => h2 x (by simp [hx]))
      by_cases hd : c.dir
      · by_cases hk : c.key = path
        · simpa [lsEntries, hd, hk] using ih'
        · have : ¬ c.key ++ "/" = path := h2c hd
          simp [lsEntries, hd, hk, ih']
          intro hcontra
          exact this hcontra.symm
      · have hk : ¬ c.key = path := fun hc => hd (h1c hc)
        simp [lsEntries, hd, ih']
        intro hcontra
        exact hk hcontra.symm

/-- Witness for C9 at a listing holding a directory self-entry, a
directory child and a leaf child. -/
theorem ls_skip_self_dir_witness :
    lsEntries "/a" [⟨"/a", none, true⟩] = lsEntries "/a" [] ∧
    "/a" ∉ (lsEntries "/a"
      [⟨"/a", none, true⟩, ⟨"/a/b", none, true⟩, ⟨"/a/c", some "v", false⟩]).map
        Prod.fst :=
  ⟨(ls_skip_self_dir "/a" [] (by simp) (by simp)).1 none [],
   (ls_skip_self_dir "/a"
      [⟨"/a", none, true⟩, ⟨"/a/b", none, true⟩, ⟨"/a/c", some "v", false⟩]
      (by decide) (by decide)).2⟩

/-! ## Claims about flatten (concrete) -/

/-- C7: a directory node with no entries flattens to the single
empty-directory marker entry at its base path, for every base path — both
at the top level and for nested empty directories — and the two concrete
examples compute as stated. -/
theorem flatten_empty_dir_marker :
    (∀ path : String, flatten [] path = [(path, FlatVal.emptyDir)]) ∧
    (∀ p : String, flatOne p (NTree.dir []) = [(p, FlatVal.emptyDir)]) ∧
    flatten [("a", NTree.dir [])] "/x" = [("/x/a", FlatVal.emptyDir)] ∧
    flatten [("k2", NTree.dir [])] "" = [("/k2", FlatVal.emptyDir)] :=
  ⟨fun _ => rfl, fun _ => rfl, rfl, rfl⟩

/-! ## Claims about writes -/

/-- Replacing an entry with the value it already holds leaves the
children list unchanged. -/
theorem setEntry_self (es : List (String × SNode)) (k : String) (n : SNode)
    (h : getEntry es k = some n) : setEntry es k n = es := by
  induction es with
  | nil => simp [getEntry] at h
  | cons e rest ih =>
      obtain ⟨k', m⟩ := e
      by_cases hk : k' = k
      · simp [getEntry, hk] at h
        simp [setEntry, hk, h]
      · simp [getEntry, hk] at h
        simp [setEntry, hk, ih h]

/-- A directory write to a path that exists as a directory reports
EtcdNotFile and leaves the store unchanged. -/
theorem storeWrite_dir_exists (segs : List String) :
    ∀ (st : Store) (d : List (String × SNode)),
      storeGet segs st = some (.sdir d) → segs ≠ [] →
      storeWrite st segs none true = (.notFile, st) := by
  induction segs with
  | nil => intro st d _ hne; exact absurd rfl hne
  | cons k rest ih =>
      intro st d h _
      cases rest with
      | nil =>
          simp [storeGet] at h
          simp [storeWrite, writeLast, h]
      | cons k2 rs =>
          simp only [storeGet] at h
          cases hg : getEntry st k with
          | none => rw [hg] at h; simp at h
          | some n =>
              rw [hg] at h
              cases n with
              | file v => simp at h
              | sdir d' =>
                  have hrec := ih d' d h (by simp)
                  simp [storeWrite, hg, hrec, setEntry_self st k (.sdir d') hg]

/-- A directory write to a path that exists as a file reports EtcdNotDir
and leaves the store unchanged. -/
theorem storeWrite_file_exists (segs : List String) :
    ∀ (st : Store) (v : String),
      storeGet segs st = some (.file v) →
      storeWrite st segs none true = (.notDir, st) := by
  induction segs with
  | nil => intro st v h; simp [storeGet] at h
  | cons k rest ih =>
      intro st v h
      cases rest with
      | nil =>
          simp [storeGet] at h
          simp [storeWrite, writeLast, h]
      | cons k2 rs =>
          simp only [storeGet] at h
          cases hg : getEntry st k with
          | none => rw [hg] at h; simp at h
          | some n =>
              rw [hg] at h
              cases n with
              | file w => simp at h
              | sdir d' =>
                  have hrec := ih d' v h
                  simp [storeWrite, hg, hrec, setEntry_self st k (.sdir d') hg]

/-- C5, counterexample to the claim as stated: the root path exists as a
directory, yet a directory write to it returns None (the transport
signals EtcdRootReadOnly, which write_directory swallows into None), not
success True. -/
theorem write_directory_root_cex :
    storeGet (segsOf "/") ([] : Store) = some (.sdir []) ∧
    write ([] : Store) "/" none true = (.ok .noneV, []) ∧
    (Except.ok WriteRet.noneV : Except Exc WriteRet) ≠ .ok (.boolV true) :=
  ⟨rfl, rfl, by simp⟩

/-- C5 (amended): for every non-root key, a directory write to a path
that already exists as a directory returns success True and leaves the
store unchanged — hence every subsequent directory write returns True as
well — while a directory write to a path that exists as a file returns
None; neither case raises. -/
theorem write_directory_idempotent (st : Store) (key : String)
    (h0 : segsOf key ≠ []) :
    (∀ d, storeGet (segsOf key) st = some (.sdir d) →
       write st key none true = (.ok (.boolV true), st)) ∧
    (∀ v, storeGet (segsOf key) st = some (.file v) →
       write st key none true = (.ok .noneV, st)) ∧
    (∀ d, storeGet (segsOf key) st = some (.sdir d) →
       write (write st key none true).2 key none true =
         (.ok (.boolV true), (write st key none true).2)) := by
  have hdir : ∀ d, storeGet (segsOf key) st = some (.sdir d) →
      write st key none true = (.ok (.boolV true), st) := by
    intro d h
    simp [write, write_directory, storeWrite_dir_exists (segsOf key) st d h h0]
  refine ⟨hdir, fun v h => ?_, fun d h => ?_⟩
  · simp [write, write_directory, storeWrite_file_exists (segsOf key) st v h]
  · rw [hdir d h]
    exact hdir d h

/-- Witness for C5: a directory write over an existing directory and over
an existing file, at concrete stores. -/
theorem write_directory_idempotent_witness :
    write [("a", SNode.sdir [])] "/a" none true =
      (.ok (.boolV true), [("a", SNode.sdir [])]) ∧
    write [("a", SNode.file "x")] "/a" none true =
      (.ok .noneV, [("a", SNode.file "x")]) :=
  ⟨(write_directory_idempotent [("a", SNode.sdir [])] "/a" (by decide)).1 [] rfl,
   (write_directory_idempotent [("a", SNode.file "x")] "/a" (by decide)).2.1 "x" rfl⟩

/-- The write loop of update produces exactly one result entry per flat
entry, keyed by the flat keys in order. -/
theorem updateGo_keys (F : List (String × FlatVal)) :
    ∀ (st : Store) (l : List (String × WriteRet)) (st' : Store),
      updateGo F st = .ok (l, st') → l.map Prod.fst = F.map Prod.fst := by
  induction F with
  | nil =>
      intro st l st' h
      simp [updateGo] at h
      simp [h.1]
  | cons e rest ih =>
      intro st l st' h
      obtain ⟨k, fv⟩ := e
      simp only [updateGo] at h
      rcases hw : writeKV st k fv with ⟨rr, st1⟩
      rw [hw] at h
      cases rr with
      | error e0 => simp at h
      | ok r =>
          simp only at h
          cases hg : updateGo rest st1 with
          | error e2 => rw [hg] at h; simp at h
          | ok p =>
              obtain ⟨l2, st2⟩ := p
              rw [hg] at h
              simp only [Except.ok.injEq, Prod.mk.injEq] at h
              obtain ⟨h1, _⟩ := h
              subst h1
              simp [ih st1 l2 st2 hg]

/-- C6: update on a non-dict returns None without writing; update on a
dict flattens it and performs one write per flat entry (the directory
flag set exactly when the flat value is a dict, per writeKV), returning
the mapping from each flat key to its write result; and the documented
example writes the two files with their values and returns a mapping
keyed by exactly the two flat paths. -/
theorem update_spec :
    (∀ (v path : String) (st : Store), update (.leaf v) path st = .ok (none, st)) ∧
    (∀ (es : List (String × NTree)) (path : String) (st : Store)
       (l : List (String × WriteRet)) (st' : Store),
       update (.dir es) path st = .ok (some l, st') →
       l.map Prod.fst = (flatten es path).map Prod.fst) ∧
    update (NTree.dir [("key1", .leaf "value1"),
                       ("key2", .dir [("sub1", .leaf "s1")])]) "/salt" [] =
      .ok (some [("/salt/key1", .strV "value1"), ("/salt/key2/sub1", .strV "s1")],
           [("salt", SNode.sdir [("key1", SNode.file "value1"),
                                 ("key2", SNode.sdir [("sub1", SNode.file "s1")])])]) := by
  refine ⟨fun v path st => rfl, ?_, rfl⟩
  intro es path st l st' h
  simp only [update] at h
  cases hg : updateGo (flatten es path) st with
  | error e => rw [hg] at h; simp at h
  | ok p =>
      obtain ⟨l2, st2⟩ := p
      rw [hg] at h
      simp only [Except.ok.injEq, Prod.mk.injEq, Option.some.injEq] at h
      obtain ⟨h1, _⟩ := h
      subst h1
      exact updateGo_keys (flatten es path) st l2 st2 hg

/-- Witness for C6: the non-dict case and the key-mapping law at a
concrete update. -/
theorem update_spec_witness :
    update (NTree.leaf "x") "/salt" [] = .ok (none, []) ∧
    [("/salt/key1", WriteRet.strV "value1")].map Prod.fst =
      (flatten [("key1", NTree.leaf "value1")] "/salt").map Prod.fst :=
  ⟨update_spec.1 "x" "/salt" [],
   update_spec.2.1 [("key1", NTree.leaf "value1")] "/salt" []
     [("/salt/key1", .strV "value1")]
     [("salt", SNode.sdir [("key1", SNode.file "value1")])] rfl⟩

/-! ## The round-trip law (C4)

Machinery for relating the string-level flatten to a segment-level
flatten, loading, and the tree reconstruction. -/

/-- True when the char list contains no slash. -/
def noSlash : List Char → Bool
  | [] => true
  | c :: rest => if c = '/' then false else noSlash rest

/-- A canonical path segment: nonempty and slash-free. -/
def goodSegB (s : String) : Bool :=
  !s.data.isEmpty && noSlash s.data

/-- Char-level join with a leading slash per segment: the shape of every
key _flatten emits ("/a/b/c"). -/
def charJoin (xss : List (List Char)) : List Char :=
  (xss.map (fun x => '/' :: x)).flatten

/-- Char-level interleaving with slashes between segments ("a/b/c"): the
shape of a stripped path. -/
def charInter : List (List Char) → List Char
  | [] => []
  | [x] => x
  | x :: y :: ys => x ++ '/' :: charInter (y :: ys)

/-- The absolute path string of a segment list. -/
def joinSegs (segs : List String) : String :=
  ⟨charJoin (segs.map String.data)⟩

/-- The stripped (relative) path string of a segment list. -/
def interSegs (segs : List String) : String :=
  ⟨charInter (segs.map String.data)⟩

/-- Key membership in a nested-tree entry list. -/
def keyMem (k : String) : List (String × NTree) → Bool
  | [] => false
  | (k2, _) :: rest => if k2 = k then true else keyMem k rest

mutual

/-- Well-formedness of a nested tree: every directory's keys are
canonical segments, pairwise distinct. -/
def wfTreeB : NTree → Bool
  | .leaf _ => true
  | .dir es => wfEntriesB es

/-- Well-formedness of a directory's entry list. -/
def wfEntriesB : List (String × NTree) → Bool
  | [] => true
  | (k, t) :: rest => goodSegB k && !keyMem k rest && wfTreeB t && wfEntriesB rest

end

mutual

/-- Segment-level counterpart of flatOne for canonical keys. -/
def fpOne (k : String) : NTree → List (List String × FlatVal)
  | .leaf v => [([k], .val v)]
  | .dir [] => [([k], .emptyDir)]
  | .dir (e :: rest) => (fpList (e :: rest)).map (fun p => (k :: p.1, p.2))

/-- Segment-level counterpart of flatList for canonical keys. -/
def fpList : List (String × NTree) → List (List String × FlatVal)
  | [] => []
  | (k, t) :: rest => fpOne k t ++ fpList rest

end

mutual

/-- The store node a well-formed nested tree value denotes directly. -/
def storeOne : NTree → SNode
  | .leaf v => .file v
  | .dir es => .sdir (storeOf es)

/-- The store a well-formed nested tree denotes directly: leaves become
files, directories become directories. -/
def storeOf : List (String × NTree) → List (String × SNode)
  | [] => []
  | (k, t) :: rest => (k, storeOne t) :: storeOf rest

end

/-- Segment-level loading of flat pairs into a store. -/
def loadP (P : List (List String × FlatVal)) (S : List (String × SNode)) :
    List (String × SNode) :=
  P.foldl (fun st p => loadStep st p.1 p.2) S

/-- Strict segment-prefix test. -/
def isPre : List String → List String → Bool
  | [], [] => false
  | [], _ :: _ => true
  | _ :: _, [] => false
  | a :: as, b :: bs => if a = b then isPre as bs else false

/-- No key of the flat map is simultaneously a directory and a leaf: a
scalar entry's path is neither the root, nor a strict prefix of another
entry's path, nor the path of an empty-directory marker. -/
def dirLeafFree (F : List (String × FlatVal)) : Bool :=
  F.all (fun e =>
    match e.2 with
    | .emptyDir => true
    | .val _ =>
        !(segsOf e.1).isEmpty &&
        F.all (fun e2 => !isPre (segsOf e.1) (segsOf e2.1)) &&
        F.all (fun e2 =>
          match e2.2 with
          | .emptyDir => !(decide (segsOf e2.1 = segsOf e.1))
          | .val _ => true))

/-- C4, counterexample to the claim as stated: the tree with entries "a"
(an empty directory) and "/a/" (a directory holding leaf b) has no key
that is simultaneously a directory and a leaf in its flat map — "/a" is a
directory both times — yet the round trip loses the empty-directory
marker at "/a": both keys strip to the same segment, so the store merges
them and the reconstructed directory "a" is no longer empty. -/
theorem flatten_roundtrip_cex :
    dirLeafFree (flatten [("a", NTree.dir []),
      ("/a/", NTree.dir [("b", NTree.leaf "v")])] "") = true ∧
    flatten [("a", NTree.dir []), ("/a/", NTree.dir [("b", NTree.leaf "v")])] "" =
      [("/a", FlatVal.emptyDir), ("/a/b", FlatVal.val "v")] ∧
    flatten (treeSim (loadFlat (flatten [("a", NTree.dir []),
      ("/a/", NTree.dir [("b", NTree.leaf "v")])] ""))) "" =
      [("/a/b", FlatVal.val "v")] ∧
    flatLookup (flatten (treeSim (loadFlat (flatten [("a", NTree.dir []),
      ("/a/", NTree.dir [("b", NTree.leaf "v")])] ""))) "") "/a" = none ∧
    flatLookup (flatten [("a", NTree.dir []),
      ("/a/", NTree.dir [("b", NTree.leaf "v")])] "") "/a" =
      some FlatVal.emptyDir :=
  ⟨rfl, rfl, rfl, rfl, rfl⟩

/-! ### Character-level path lemmas -/

theorem noSlash_iff (cs : List Char) :
    noSlash cs = true ↔ ∀ c ∈ cs, ¬ c = '/' := by
  induction cs with
  | nil => simp [noSlash]
  | cons c rest ih =>
      by_cases hc : c = '/'
      · simp [noSlash, hc]
      · simp [noSlash, hc, ih]

theorem goodSeg_iff (s : String) :
    goodSegB s = true ↔ s.data ≠ [] ∧ noSlash s.data = true := by
  simp [goodSegB, List.isEmpty_iff]

theorem dropWhile_slash_of_noSlash (cs : List Char) (h : noSlash cs = true) :
    cs.dropWhile (fun c => c = '/') = cs := by
  cases cs with
  | nil => rfl
  | cons c rest =>
      have hc : ¬ c = '/' := by
        rw [noSlash_iff] at h
        exact h c (by simp)
      simp [List.dropWhile_cons, hc]

theorem dropWhile_slash_append (x t : List Char) (hx : x ≠ [])
    (h : noSlash x = true) :
    (x ++ t).dropWhile (fun c => c = '/') = x ++ t := by
  cases x with
  | nil => exact absurd rfl hx
  | cons c rest =>
      have hc : ¬ c = '/' := by
        rw [noSlash_iff] at h
        exact h c (by simp)
      simp [List.dropWhile_cons, hc]

theorem charJoin_cons (x : List Char) (xs : List (List Char)) :
    charJoin (x :: xs) = '/' :: (x ++ charJoin xs) := by
  simp [charJoin]

theorem charJoin_append_single (xs : List (List Char)) (y : List Char) :
    charJoin (xs ++ [y]) = charJoin xs ++ '/' :: y := by
  simp [charJoin]

theorem charJoin_eq_slash_charInter (xss : List (List Char)) (h : xss ≠ []) :
    charJoin xss = '/' :: charInter xss := by
  induction xss with
  | nil => exact absurd rfl h
  | cons x xs ih =>
      cases xs with
      | nil => simp [charJoin, charInter]
      | cons y ys =>
          rw [charJoin_cons, ih (by simp), charInter]

theorem charInter_cons (x : List Char) (xs : List (List Char)) :
    charInter (x :: xs) = x ++ charJoin xs := by
  cases xs with
  | nil => simp [charInter, charJoin]
  | cons y ys =>
      rw [charInter, charJoin_eq_slash_charInter (y :: ys) (by simp)]

theorem charInter_ne_nil (x : List Char) (xs : List (List Char))
    (hx : x ≠ []) : charInter (x :: xs) ≠ [] := by
  rw [charInter_cons]
  simp [hx]

theorem charInter_reverse_head (xss : List (List Char))
    (hne : xss ≠ []) (h : ∀ x ∈ xss, x ≠ [] ∧ noSlash x = true) :
    ∃ c cs, (charInter xss).reverse = c :: cs ∧ ¬ c = '/' := by
  induction xss with
  | nil => exact absurd rfl hne
  | cons x xs ih =>
      cases xs with
      | nil =>
          obtain ⟨hx, hs⟩ := h x (by simp)
          cases hr : x.reverse with
          | nil => exact absurd (List.reverse_eq_nil_iff.mp hr) hx
          | cons c cs =>
              refine ⟨c, cs, by simp [charInter, hr], ?_⟩
              have hcm : c ∈ x := by
                rw [← List.mem_reverse, hr]
                simp
              exact (noSlash_iff x).mp hs c hcm
      | cons y ys =>
          obtain ⟨c, cs, hr, hc⟩ :=
            ih (by simp) (fun z hz => h z (by simp [hz]))
          refine ⟨c, cs ++ '/' :: x.reverse, ?_, hc⟩
          show (charInter (x :: y :: ys)).reverse = c :: (cs ++ '/' :: x.reverse)
          rw [charInter]
          simp [List.reverse_append, hr]

theorem stripCh_charJoin (xss : List (List Char)) (hne : xss ≠ [])
    (h : ∀ x ∈ xss, x ≠ [] ∧ noSlash x = true) :
    stripCh (charJoin xss) = charInter xss := by
  cases xss with
  | nil => exact absurd rfl hne
  | cons x xs =>
      obtain ⟨hx, hs⟩ := h x (by simp)
      have h1 : dropSlash (charJoin (x :: xs)) = charInter (x :: xs) := by
        rw [charJoin_cons, charInter_cons]
        show List.dropWhile (fun c => c = '/') ('/' :: (x ++ charJoin xs)) =
          x ++ charJoin xs
        rw [List.dropWhile_cons]
        simp only [decide_True, if_true]
        exact dropWhile_slash_append x (charJoin xs) hx hs
      obtain ⟨c, cs, hr, hc⟩ := charInter_reverse_head (x :: xs) (by simp) h
      show ((dropSlash (charJoin (x :: xs))).reverse.dropWhile
        (fun c => c = '/')).reverse = charInter (x :: xs)
      rw [h1, hr, List.dropWhile_cons]
      simp only [hc, decide_False, if_false, Bool.false_eq_true]
      have h2 : charInter (x :: xs) = (c :: cs).reverse := by
        rw [← hr, List.reverse_reverse]
      simp [h2]

theorem goodSeg_data (segs : List String)
    (h : ∀ s ∈ segs, goodSegB s = true) :
    ∀ x ∈ segs.map String.data, x ≠ [] ∧ noSlash x = true := by
  intro x hx
  obtain ⟨s, hsm, rfl⟩ := List.mem_map.mp hx
  exact (goodSeg_iff s).mp (h s hsm)

theorem stripSlashes_joinSegs (segs : List String) (hne : segs ≠ [])
    (h : ∀ s ∈ segs, goodSegB s = true) :
    stripSlashes (joinSegs segs) = interSegs segs := by
  apply String.ext
  show stripCh (charJoin (segs.map String.data)) = charInter (segs.map String.data)
  exact stripCh_charJoin (segs.map String.data) (by simpa using hne)
    (goodSeg_data segs h)

theorem stripSlashes_of_goodSeg (k : String) (h : goodSegB k = true) :
    stripSlashes k = k := by
  obtain ⟨hne, hs⟩ := (goodSeg_iff k).mp h
  apply String.ext
  show stripCh k.data = k.data
  have hsr : noSlash k.data.reverse = true := by
    rw [noSlash_iff] at hs ⊢
    intro z hz
    exact hs z (List.mem_reverse.mp hz)
  show ((dropSlash k.data).reverse.dropWhile (fun c => c = '/')).reverse = k.data
  unfold dropSlash
  rw [dropWhile_slash_of_noSlash k.data hs,
    dropWhile_slash_of_noSlash k.data.reverse hsr, List.reverse_reverse]

theorem interSegs_cons_ne_empty (s : String) (ss : List String)
    (h : goodSegB s = true) : interSegs (s :: ss) ≠ "" := by
  intro hcontra
  have hd : charInter ((s :: ss).map String.data) = [] :=
    congrArg String.data hcontra
  exact charInter_ne_nil s.data (ss.map String.data)
    ((goodSeg_iff s).mp h).1 hd

theorem mkPath_joinSegs (segs : List String) (k : String)
    (hsegs : ∀ s ∈ segs, goodSegB s = true) (_hk : goodSegB k = true) :
    mkPath (interSegs segs) k = joinSegs (segs ++ [k]) := by
  cases segs with
  | nil =>
      show mkPath "" k = joinSegs [k]
      unfold mkPath
      rw [if_pos rfl]
      apply String.ext
      show ("/" ++ k).data = charJoin [k.data]
      rw [String.data_append]
      simp [charJoin]
  | cons s ss =>
      unfold mkPath
      rw [if_neg (interSegs_cons_ne_empty s ss (hsegs s (by simp)))]
      apply String.ext
      show ("/" ++ interSegs (s :: ss) ++ "/" ++ k).data =
        charJoin (((s :: ss) ++ [k]).map String.data)
      rw [String.data_append, String.data_append, String.data_append]
      show ['/'] ++ charInter ((s :: ss).map String.data) ++ ['/'] ++ k.data =
        charJoin (((s :: ss) ++ [k]).map String.data)
      rw [List.map_append]
      simp only [List.map_cons, List.map_nil]
      rw [charJoin_append_single, charJoin_eq_slash_charInter _ (by simp)]
      simp

theorem splitAcc_append_noSlash (x : List Char) :
    ∀ (cs acc : List Char), noSlash x = true →
    splitAcc (x ++ cs) acc = splitAcc cs (x.reverse ++ acc) := by
  induction x with
  | nil => intro cs acc _; simp
  | cons c x2 ih =>
      intro cs acc h
      have hc : ¬ c = '/' := by
        rw [noSlash_iff] at h
        exact h c (by simp)
      have h2 : noSlash x2 = true := by
        rw [noSlash_iff] at h ⊢
        intro z hz
        exact h z (by simp [hz])
      show splitAcc (c :: (x2 ++ cs)) acc = _
      rw [splitAcc, if_neg hc, ih cs (c :: acc) h2]
      simp

theorem splitAcc_charJoin_acc (xs : List (List Char)) (acc : List Char)
    (hacc : acc ≠ []) :
    splitAcc (charJoin xs) acc = acc.reverse :: splitAcc (charJoin xs) [] := by
  cases xs with
  | nil => simp [charJoin, splitAcc, hacc]
  | cons y ys =>
      rw [charJoin_cons]
      show splitAcc ('/' :: (y ++ charJoin ys)) acc =
        acc.reverse :: splitAcc ('/' :: (y ++ charJoin ys)) []
      rw [splitAcc, splitAcc, if_pos rfl, if_pos rfl, if_neg hacc, if_pos rfl]
      simp

theorem splitAcc_charJoin (xss : List (List Char))
    (h : ∀ x ∈ xss, x ≠ [] ∧ noSlash x = true) :
    splitAcc (charJoin xss) [] = xss := by
  induction xss with
  | nil => rfl
  | cons x xs ih =>
      obtain ⟨hx, hs⟩ := h x (by simp)
      rw [charJoin_cons]
      show splitAcc ('/' :: (x ++ charJoin xs)) [] = x :: xs
      rw [splitAcc, if_pos rfl, if_pos rfl]
      rw [splitAcc_append_noSlash x (charJoin xs) [] hs]
      rw [List.append_nil]
      rw [splitAcc_charJoin_acc xs x.reverse (by simpa using hx)]
      rw [List.reverse_reverse, ih (fun z hz => h z (by simp [hz]))]
      simp

theorem segsOf_joinSegs (segs : List String)
    (h : ∀ s ∈ segs, goodSegB s = true) :
    segsOf (joinSegs segs) = segs := by
  show (splitAcc (charJoin (segs.map String.data)) []).map
    (fun cs => (⟨cs⟩ : String)) = segs
  rw [splitAcc_charJoin _ (goodSeg_data segs h), List.map_map]
  have he : ((fun cs => (⟨cs⟩ : String)) ∘ String.data) = id := funext fun s => rfl
  rw [he, List.map_id]

/-! ### Flatten computes the segment-level flat pairs -/

theorem wfEntriesB_cons_iff (k : String) (t : NTree)
    (rest : List (String × NTree)) :
    wfEntriesB ((k, t) :: rest) = true ↔
      goodSegB k = true ∧ keyMem k rest = false ∧ wfTreeB t = true ∧
      wfEntriesB rest = true := by
  show (goodSegB k && !keyMem k rest && wfTreeB t && wfEntriesB rest) = true ↔ _
  simp [Bool.and_eq_true, Bool.not_eq_true']
  tauto

mutual

theorem flatOne_fp (t : NTree) : ∀ (k : String) (segs : List String),
    wfTreeB t = true → goodSegB k = true →
    (∀ s ∈ segs, goodSegB s = true) →
    flatOne (joinSegs (segs ++ [k])) t =
      (fpOne k t).map (fun p => (joinSegs (segs ++ p.1), p.2)) := by
  cases t with
  | leaf v => intro k segs _ _ _; rfl
  | dir es =>
      cases es with
      | nil => intro k segs _ _ _; rfl
      | cons e rest =>
          intro k segs hwf hk hsegs
          have hgood : ∀ s ∈ segs ++ [k], goodSegB s = true := by
            intro s hs
            rcases List.mem_append.mp hs with h1 | h1
            · exact hsegs s h1
            · simp at h1
              rw [h1]
              exact hk
          show flatList (e :: rest) (stripSlashes (joinSegs (segs ++ [k]))) =
            (fpOne k (.dir (e :: rest))).map
              (fun p => (joinSegs (segs ++ p.1), p.2))
          rw [stripSlashes_joinSegs (segs ++ [k]) (by simp) hgood]
          rw [flatList_fp (e :: rest) (segs ++ [k]) hwf hgood]
          show _ = ((fpList (e :: rest)).map (fun p => (k :: p.1, p.2))).map
            (fun p => (joinSegs (segs ++ p.1), p.2))
          rw [List.map_map]
          congr 1
          funext p
          show (joinSegs ((segs ++ [k]) ++ p.1), p.2) =
            (joinSegs (segs ++ (k :: p.1)), p.2)
          rw [List.append_assoc]
          rfl

theorem flatList_fp (es : List (String × NTree)) : ∀ (segs : List String),
    wfEntriesB es = true → (∀ s ∈ segs, goodSegB s = true) →
    flatList es (interSegs segs) =
      (fpList es).map (fun p => (joinSegs (segs ++ p.1), p.2)) := by
  cases es with
  | nil => intro segs _ _; rfl
  | cons e rest =>
      intro segs hwf hsegs
      obtain ⟨k0, t⟩ := e
      obtain ⟨hk0, _, hwt, hwrest⟩ := (wfEntriesB_cons_iff k0 t rest).mp hwf
      show flatOne (mkPath (interSegs segs) (stripSlashes k0)) t ++
          flatList rest (interSegs segs) =
        (fpList ((k0, t) :: rest)).map (fun p => (joinSegs (segs ++ p.1), p.2))
      rw [stripSlashes_of_goodSeg k0 hk0]
      rw [mkPath_joinSegs segs k0 hsegs hk0]
      rw [flatOne_fp t k0 segs hwt hk0 hsegs]
      rw [flatList_fp rest segs hwrest hsegs]
      show _ = (fpOne k0 t ++ fpList rest).map
        (fun p => (joinSegs (segs ++ p.1), p.2))
      rw [List.map_append]

end

/-! ### Loading the flat pairs rebuilds the direct store -/

mutual

theorem fpOne_ne_nil (t : NTree) : ∀ k, fpOne k t ≠ [] := by
  cases t with
  | leaf v => intro k; simp [fpOne]
  | dir es =>
      cases es with
      | nil => intro k; simp [fpOne]
      | cons e rest =>
          intro k
          show (fpList (e :: rest)).map (fun p => (k :: p.1, p.2)) ≠ []
          simp [fpList_cons_ne_nil e rest]

theorem fpList_cons_ne_nil (e : String × NTree) (rest : List (String × NTree)) :
    fpList (e :: rest) ≠ [] := by
  obtain ⟨k, t⟩ := e
  show fpOne k t ++ fpList rest ≠ []
  simp [fpOne_ne_nil t k]

end

mutual

theorem fpOne_good (t : NTree) : ∀ (k : String),
    wfTreeB t = true → goodSegB k = true →
    ∀ p ∈ fpOne k t, (∀ s ∈ p.1, goodSegB s = true) ∧ p.1 ≠ [] := by
  cases t with
  | leaf v =>
      intro k _ hk p hp
      simp [fpOne] at hp
      subst hp
      refine ⟨?_, by simp⟩
      intro s hs
      simp at hs
      rw [hs]
      exact hk
  | dir es =>
      cases es with
      | nil =>
          intro k _ hk p hp
          simp [fpOne] at hp
          subst hp
          refine ⟨?_, by simp⟩
          intro s hs
          simp at hs
          rw [hs]
          exact hk
      | cons e rest =>
          intro k hwf hk p hp
          have hp2 : p ∈ (fpList (e :: rest)).map (fun p => (k :: p.1, p.2)) := hp
          obtain ⟨q, hq, rfl⟩ := List.mem_map.mp hp2
          obtain ⟨hqs, _⟩ := fpList_good (e :: rest) hwf q hq
          refine ⟨?_, by simp⟩
          intro s hs
          rcases List.mem_cons.mp hs with h1 | h1
          · rw [h1]; exact hk
          · exact hqs s h1

theorem fpList_good (es : List (String × NTree)) :
    wfEntriesB es = true →
    ∀ p ∈ fpList es, (∀ s ∈ p.1, goodSegB s = true) ∧ p.1 ≠ [] := by
  cases es with
  | nil => intro _ p hp; simp [fpList] at hp
  | cons e rest =>
      intro hwf p hp
      obtain ⟨k, t⟩ := e
      obtain ⟨hk, _, hwt, hwrest⟩ := (wfEntriesB_cons_iff k t rest).mp hwf
      have hp2 : p ∈ fpOne k t ++ fpList rest := hp
      rcases List.mem_append.mp hp2 with h1 | h1
      · exact fpOne_good t k hwt hk p h1
      · exact fpList_good rest hwrest p h1

end

theorem keyMem_self (k : String) (t : NTree) (rest : List (String × NTree)) :
    keyMem k ((k, t) :: rest) = true := by
  simp [keyMem]

theorem keyMem_cons_of (k2 k : String) (t : NTree)
    (rest : List (String × NTree)) (h : keyMem k2 rest = true) :
    keyMem k2 ((k, t) :: rest) = true := by
  by_cases hk : k = k2 <;> simp [keyMem, hk, h]

theorem keyMem_false_ne (k k2 : String) (rest : List (String × NTree))
    (h1 : keyMem k rest = false) (h2 : keyMem k2 rest = true) : ¬ k = k2 := by
  intro he
  rw [he] at h1
  rw [h1] at h2
  exact Bool.false_ne_true h2

theorem getEntry_append_self (S : List (String × SNode)) (k : String)
    (x : SNode) (h : getEntry S k = none) :
    getEntry (S ++ [(k, x)]) k = some x := by
  induction S with
  | nil => simp [getEntry]
  | cons e rest ih =>
      obtain ⟨k2, n⟩ := e
      by_cases hk : k2 = k
      · simp [getEntry, hk] at h
      · simp [getEntry, hk] at h ⊢
        exact ih h

theorem getEntry_append_other (S : List (String × SNode)) (k k2 : String)
    (x : SNode) (h : getEntry S k2 = none) (hne : ¬ k = k2) :
    getEntry (S ++ [(k, x)]) k2 = none := by
  induction S with
  | nil => simp [getEntry, hne]
  | cons e rest ih =>
      obtain ⟨k3, n⟩ := e
      by_cases hk : k3 = k2
      · simp [getEntry, hk] at h
      · simp [getEntry, hk] at h ⊢
        exact ih h

theorem setEntry_append_self (S : List (String × SNode)) (k : String)
    (x y : SNode) (h : getEntry S k = none) :
    setEntry (S ++ [(k, x)]) k y = S ++ [(k, y)] := by
  induction S with
  | nil => simp [setEntry]
  | cons e rest ih =>
      obtain ⟨k2, n⟩ := e
      by_cases hk : k2 = k
      · simp [getEntry, hk] at h
      · simp [getEntry, hk] at h
        simp [setEntry, hk, ih h]

theorem storeWrite_fresh_deep (S : List (String × SNode)) (k : String)
    (segs : List String) (v : Option String) (b : Bool)
    (h : getEntry S k = none) (hs : segs ≠ []) :
    storeWrite S (k :: segs) v b =
      ((storeWrite [] segs v b).1, S ++ [(k, .sdir (storeWrite [] segs v b).2)]) := by
  cases segs with
  | nil => exact absurd rfl hs
  | cons q qs => simp [storeWrite, h]

theorem storeWrite_into_dir (S : List (String × SNode)) (k : String)
    (d : List (String × SNode)) (segs : List String) (v : Option String)
    (b : Bool) (h : getEntry S k = some (.sdir d)) (hs : segs ≠ []) :
    storeWrite S (k :: segs) v b =
      ((storeWrite d segs v b).1,
        setEntry S k (.sdir (storeWrite d segs v b).2)) := by
  cases segs with
  | nil => exact absurd rfl hs
  | cons q qs => simp [storeWrite, h]

theorem loadStep_fresh_deep (S : List (String × SNode)) (k : String)
    (segs : List String) (fv : FlatVal) (h : getEntry S k = none)
    (hs : segs ≠ []) :
    loadStep S (k :: segs) fv = S ++ [(k, .sdir (loadStep [] segs fv))] := by
  cases fv <;> simp [loadStep, storeWrite_fresh_deep S k segs _ _ h hs]

theorem loadStep_into_dir (S : List (String × SNode)) (k : String)
    (d : List (String × SNode)) (segs : List String) (fv : FlatVal)
    (h : getEntry S k = some (.sdir d)) (hs : segs ≠ []) :
    loadStep S (k :: segs) fv = setEntry S k (.sdir (loadStep d segs fv)) := by
  cases fv <;> simp [loadStep, storeWrite_into_dir S k d segs _ _ h hs]

theorem loadP_append (A B : List (List String × FlatVal)) (S : Store) :
    loadP (A ++ B) S = loadP B (loadP A S) := by
  simp [loadP, List.foldl_append]

theorem loadP_under_key (P : List (List String × FlatVal)) :
    ∀ (k : String) (S : Store) (D : List (String × SNode)),
    getEntry S k = none → (∀ p ∈ P, p.1 ≠ []) →
    loadP (P.map (fun p => (k :: p.1, p.2))) (S ++ [(k, .sdir D)]) =
      S ++ [(k, .sdir (loadP P D))] := by
  induction P with
  | nil => intro k S D _ _; rfl
  | cons p P2 ih =>
      intro k S D h hne
      have hp1 : p.1 ≠ [] := hne p (by simp)
      have hget : getEntry (S ++ [(k, .sdir D)]) k = some (.sdir D) :=
        getEntry_append_self S k _ h
      show loadP (P2.map (fun p => (k :: p.1, p.2)))
          (loadStep (S ++ [(k, SNode.sdir D)]) (k :: p.1) p.2) = _
      rw [loadStep_into_dir (S ++ [(k, SNode.sdir D)]) k D p.1 p.2 hget hp1]
      rw [setEntry_append_self S k _ _ h]
      rw [ih k S (loadStep D p.1 p.2) h (fun q hq => hne q (by simp [hq]))]
      rfl

mutual

theorem loadP_fpOne (t : NTree) : ∀ (k : String) (S : Store),
    wfTreeB t = true → goodSegB k = true → getEntry S k = none →
    loadP (fpOne k t) S = S ++ [(k, storeOne t)] := by
  cases t with
  | leaf v =>
      intro k S _ _ h
      show loadStep S [k] (.val v) = S ++ [(k, .file v)]
      simp [loadStep, storeWrite, writeLast, h]
  | dir es =>
      cases es with
      | nil =>
          intro k S _ _ h
          show loadStep S [k] .emptyDir = S ++ [(k, .sdir [])]
          simp [loadStep, storeWrite, writeLast, h]
      | cons e rest =>
          intro k S hwf hk h
          cases hfp : fpList (e :: rest) with
          | nil => exact absurd hfp (fpList_cons_ne_nil e rest)
          | cons p0 Ptail =>
              have hgood := fpList_good (e :: rest) hwf
              have hp0 : p0.1 ≠ [] := by
                refine (hgood p0 ?_).2
                rw [hfp]
                simp
              have htails : ∀ p ∈ Ptail, p.1 ≠ [] := by
                intro p hp
                refine (hgood p ?_).2
                rw [hfp]
                simp [hp]
              show loadP ((fpList (e :: rest)).map (fun p => (k :: p.1, p.2))) S =
                S ++ [(k, .sdir (storeOf (e :: rest)))]
              rw [hfp]
              show loadP ((k :: p0.1, p0.2) ::
                Ptail.map (fun p => (k :: p.1, p.2))) S = _
              show loadP (Ptail.map (fun p => (k :: p.1, p.2)))
                (loadStep S (k :: p0.1) p0.2) = _
              rw [loadStep_fresh_deep S k p0.1 p0.2 h hp0]
              rw [loadP_under_key Ptail k S (loadStep [] p0.1 p0.2) h htails]
              have hfold : loadP Ptail (loadStep [] p0.1 p0.2) =
                  loadP (fpList (e :: rest)) [] := by
                rw [hfp]
                rfl
              rw [hfold]
              rw [loadP_fpList (e :: rest) [] hwf (fun k2 _ => rfl)]
              rfl

theorem loadP_fpList (es : List (String × NTree)) : ∀ (S : Store),
    wfEntriesB es = true →
    (∀ k2, keyMem k2 es = true → getEntry S k2 = none) →
    loadP (fpList es) S = S ++ storeOf es := by
  cases es with
  | nil => intro S _ _; show S = S ++ []; simp
  | cons e rest =>
      intro S hwf hfresh
      obtain ⟨k, t⟩ := e
      obtain ⟨hk, hkm, hwt, hwrest⟩ := (wfEntriesB_cons_iff k t rest).mp hwf
      show loadP (fpOne k t ++ fpList rest) S = S ++ storeOf ((k, t) :: rest)
      rw [loadP_append]
      rw [loadP_fpOne t k S hwt hk (hfresh k (keyMem_self k t rest))]
      rw [loadP_fpList rest (S ++ [(k, storeOne t)]) hwrest ?hfresh2]
      case hfresh2 =>
        intro k2 hk2
        exact getEntry_append_other S k k2 _
          (hfresh k2 (keyMem_cons_of k2 k t rest hk2))
          (keyMem_false_ne k k2 rest hkm hk2)
      show (S ++ [(k, storeOne t)]) ++ storeOf rest =
        S ++ ((k, storeOne t) :: storeOf rest)
      simp

end

mutual

theorem treeSimN_storeOne (t : NTree) : treeSimN (storeOne t) = t := by
  cases t with
  | leaf v => rfl
  | dir es =>
      show NTree.dir (treeSim (storeOf es)) = NTree.dir es
      rw [treeSim_storeOf es]

theorem treeSim_storeOf (es : List (String × NTree)) :
    treeSim (storeOf es) = es := by
  cases es with
  | nil => rfl
  | cons e rest =>
      obtain ⟨k, t⟩ := e
      show (k, treeSimN (storeOne t)) :: treeSim (storeOf rest) = (k, t) :: rest
      rw [treeSimN_storeOne t, treeSim_storeOf rest]

end

theorem loadP_of_mapped (P : List (List String × FlatVal)) :
    ∀ (S : Store), (∀ p ∈ P, ∀ s ∈ p.1, goodSegB s = true) →
    (P.map (fun p => (joinSegs p.1, p.2))).foldl
      (fun st e => loadStep st (segsOf e.1) e.2) S = loadP P S := by
  induction P with
  | nil => intro S _; rfl
  | cons p P2 ih =>
      intro S h
      show (P2.map (fun p => (joinSegs p.1, p.2))).foldl
          (fun st e => loadStep st (segsOf e.1) e.2)
          (loadStep S (segsOf (joinSegs p.1)) p.2) =
        loadP P2 (loadStep S p.1 p.2)
      rw [segsOf_joinSegs p.1 (h p (by simp))]
      exact ih (loadStep S p.1 p.2) (fun q hq s hs => h q (by simp [hq]) s hs)

/-- C4 (amended): for every nested tree whose keys are canonical path
segments — nonempty, slash-free, and pairwise distinct at each level —
flattening, loading the flat entries into an empty store by replaying
the write loop, reconstructing via the directory-listing simulation of
tree, and flattening again yields exactly the flat map of the original
tree (the entry lists are equal, so in particular equal ignoring order). -/
theorem flatten_roundtrip (es : List (String × NTree))
    (h : wfEntriesB es = true) :
    flatten (treeSim (loadFlat (flatten es ""))) "" = flatten es "" := by
  cases es with
  | nil => rfl
  | cons e rest =>
      have hA : flatten (e :: rest) "" =
          (fpList (e :: rest)).map (fun p => (joinSegs p.1, p.2)) := by
        show flatList (e :: rest) (stripSlashes "") = _
        have h0 : stripSlashes "" = interSegs [] := rfl
        rw [h0, flatList_fp (e :: rest) [] h (by simp)]
        simp only [List.nil_append]
      have hB : loadFlat ((fpList (e :: rest)).map
          (fun p => (joinSegs p.1, p.2))) = loadP (fpList (e :: rest)) [] :=
        loadP_of_mapped (fpList (e :: rest)) []
          (fun p hp => (fpList_good (e :: rest) h p hp).1)
      rw [hA, hB]
      rw [loadP_fpList (e :: rest) [] h (fun k2 _ => rfl)]
      show flatten (treeSim (storeOf (e :: rest))) "" = _
      rw [treeSim_storeOf]
      exact hA

/-- Witness for C4 at a concrete well-formed tree holding a leaf, a
nested leaf and a nested empty directory. -/
theorem flatten_roundtrip_witness :
    wfEntriesB [("k1", NTree.leaf "v1"),
      ("k2", NTree.dir [("s1", NTree.leaf "x"), ("d", NTree.dir [])])] = true ∧
    flatten (treeSim (loadFlat (flatten [("k1", NTree.leaf "v1"),
      ("k2", NTree.dir [("s1", NTree.leaf "x"), ("d", NTree.dir [])])] ""))) "" =
    flatten [("k1", NTree.leaf "v1"),
      ("k2", NTree.dir [("s1", NTree.leaf "x"), ("d", NTree.dir [])])] "" :=
  ⟨by decide, flatten_roundtrip _ (by decide)⟩

end EtcdUtil
